import Mathlib

/-!
Shallow embedding of the two decision components of the repository:
`ImmediateExecutionModel.Execute` (Algorithm.Framework/Execution) and
`MaximumDrawdownPercentPerSecurity` (Algorithm.Framework/Risk).

Instrument identifiers are opaque comparable keys, modelled as `ℕ`.
All quantities and percentages are signed reals in the source (Python
floats used as exact decision values); they are modelled as `ℚ`, which
keeps every comparison the code performs decidable and executable.
The external engine state handed to one call (securities with holdings,
open orders) is a read-only snapshot per the spec's resource model;
order submission appends to an outbound `Submitted` trace.
-/

namespace LeanPy

/-- Opaque, hashable, comparable instrument key. -/
abbrev Symbol := ℕ

/-- A desired end-of-cycle position: `PortfolioTarget(symbol, quantity)`. -/
structure PortfolioTarget where
  Symbol : LeanPy.Symbol
  Quantity : ℚ
  deriving DecidableEq, Repr

/-- Per-instrument holding state read from the engine:
`Holdings.Quantity` and `Holdings.UnrealizedProfitPercent`. -/
structure Holdings where
  Quantity : ℚ
  UnrealizedProfitPercent : ℚ
  deriving DecidableEq, Repr

/-- One entry of `algorithm.Securities`: the symbol, the `Invested` flag
and the holdings object. -/
structure Security where
  Symbol : LeanPy.Symbol
  Invested : Bool
  Holdings : LeanPy.Holdings
  deriving DecidableEq, Repr

/-- An open (unfilled) order tracked by `algorithm.Transactions`. -/
structure OpenOrder where
  Symbol : LeanPy.Symbol
  Quantity : ℚ
  deriving DecidableEq, Repr

/-- A market-order request handed to the order router by
`algorithm.MarketOrder(symbol, quantity)`. -/
structure OrderRequest where
  Symbol : LeanPy.Symbol
  Quantity : ℚ
  deriving DecidableEq, Repr

/-- The slice of the algorithm object the two components touch:
`Securities` (the security collection), the open orders behind
`Transactions.GetOpenOrders`, and the outbound trace of submitted
market orders. -/
structure AlgoState where
  Securities : List Security
  OpenOrders : List OpenOrder
  Submitted : List OrderRequest
  deriving DecidableEq, Repr

/-- Models `algorithm.Transactions.GetOpenOrders(symbol)`: the open
orders for one symbol. -/
def AlgoState.GetOpenOrders (st : AlgoState) (symbol : Symbol) : List OpenOrder :=
  st.OpenOrders.filter (fun x => x.Symbol == symbol)

/-- Models the indexer `algorithm.Securities[symbol]`. A symbol the
engine does not carry is read as an empty registration (quantity 0, not
invested); the engine hands the core a fully-formed view, so targeted
symbols are present in every intended run. -/
def AlgoState.getSecurity (st : AlgoState) (symbol : Symbol) : Security :=
  (st.Securities.find? (fun s => s.Symbol == symbol)).getD
    { Symbol := symbol, Invested := false,
      Holdings := { Quantity := 0, UnrealizedProfitPercent := 0 } }

/-- Models `algorithm.MarketOrder(symbol, quantity)`: the request is
handed to the order-routing collaborator, recorded on the outbound
trace. The holdings and open-order snapshots of the call are read-only
for the duration of the call. -/
def AlgoState.MarketOrder (st : AlgoState) (symbol : Symbol) (quantity : ℚ) : AlgoState :=
  { st with Submitted := st.Submitted ++ [{ Symbol := symbol, Quantity := quantity }] }

/-- Translation of `ImmediateExecutionModel.Execute(algorithm, targets)`:
for each target, sum the open-order quantities for its symbol, add the
current holding quantity, and submit one market order for the
difference when it is nonzero. -/
def Execute (st : AlgoState) : List PortfolioTarget → AlgoState
  | [] => st
  | target :: rest =>
    let open_quantity := ((st.GetOpenOrders target.Symbol).map OpenOrder.Quantity).sum
    let existing := (st.getSecurity target.Symbol).Holdings.Quantity + open_quantity
    let quantity := target.Quantity - existing
    Execute (if quantity ≠ 0 then st.MarketOrder target.Symbol quantity else st) rest

/-- The risk model object; the only state is the threshold stored by the
constructor. -/
structure MaximumDrawdownPercentPerSecurity where
  maximumDrawdownPercent : ℚ
  deriving DecidableEq, Repr

/-- Translation of the constructor
`MaximumDrawdownPercentPerSecurity(maximumDrawdownPercent = 0.05)`:
stores `-abs(maximumDrawdownPercent)`. -/
def MaximumDrawdownPercentPerSecurity.init
    (maximumDrawdownPercent : ℚ := 0.05) : MaximumDrawdownPercentPerSecurity :=
  { maximumDrawdownPercent := -|maximumDrawdownPercent| }

/-- Translation of
`MaximumDrawdownPercentPerSecurity.ManageRisk(algorithm, targets)`:
scan the securities; for each invested security whose unrealized profit
percent is strictly below the stored threshold, remove every target
carrying its symbol and append a liquidation target of quantity 0. -/
def ManageRisk (self : MaximumDrawdownPercentPerSecurity) :
    List Security → List PortfolioTarget → List PortfolioTarget
  | [], targets => targets
  | security :: rest, targets =>
    if !security.Invested then
      ManageRisk self rest targets
    else
      let pnl := security.Holdings.UnrealizedProfitPercent
      if pnl < self.maximumDrawdownPercent then
        ManageRisk self rest
          ((targets.filter (fun x => x.Symbol != security.Symbol)) ++
            [{ Symbol := security.Symbol, Quantity := 0 }])
      else
        ManageRisk self rest targets

/-- The same source method translated with the algorithm state threaded
explicitly, so that any state-modifying engine call the body made (it
makes none: no `MarketOrder`, no writes) would show up in the returned
state. -/
def ManageRiskRun (self : MaximumDrawdownPercentPerSecurity) (st : AlgoState) :
    List Security → List PortfolioTarget → List PortfolioTarget × AlgoState
  | [], targets => (targets, st)
  | security :: rest, targets =>
    if !security.Invested then
      ManageRiskRun self st rest targets
    else
      let pnl := security.Holdings.UnrealizedProfitPercent
      if pnl < self.maximumDrawdownPercent then
        ManageRiskRun self st rest
          ((targets.filter (fun x => x.Symbol != security.Symbol)) ++
            [{ Symbol := security.Symbol, Quantity := 0 }])
      else
        ManageRiskRun self st rest targets

/-- The spec-side per-target quantity already accounted for:
`holding.quantity + sum(openOrders)` for the symbol. -/
def existingFor (st : AlgoState) (symbol : Symbol) : ℚ :=
  (st.getSecurity symbol).Holdings.Quantity +
    ((st.GetOpenOrders symbol).map OpenOrder.Quantity).sum

/-- The spec-side delta of a target:
`target.targetQuantity - (holding.quantity + sum(openOrders))`. -/
def deltaFor (st : AlgoState) (target : PortfolioTarget) : ℚ :=
  target.Quantity - existingFor st target.Symbol

/-- The per-cycle order requests the spec calls for: one per target with
nonzero delta, quantity the delta, in target-list order. -/
def ordersFor (st : AlgoState) (targets : List PortfolioTarget) : List OrderRequest :=
  targets.filterMap (fun t =>
    if deltaFor st t = 0 then none
    else some { Symbol := t.Symbol, Quantity := deltaFor st t })

/-- Guard of the risk override: invested and strictly below threshold. -/
def breaches (self : MaximumDrawdownPercentPerSecurity) (security : Security) : Bool :=
  security.Invested &&
    decide (security.Holdings.UnrealizedProfitPercent < self.maximumDrawdownPercent)

/-- Symbols of the breaching securities, in scan order, duplicates kept. -/
def breachSyms (self : MaximumDrawdownPercentPerSecurity) (sec : List Security) :
    List Symbol :=
  (sec.filter (breaches self)).map Security.Symbol

/-- Keep only the last occurrence of each element, preserving the order
of those last occurrences. -/
def keepLast : List Symbol → List Symbol
  | [] => []
  | s :: rest => if s ∈ rest then keepLast rest else s :: keepLast rest

/-- The submitted-order trace and the other state components depend only
on the securities and open-order snapshots, not on the trace so far. -/
theorem ordersFor_congr {st st' : AlgoState} (h1 : st.Securities = st'.Securities)
    (h2 : st.OpenOrders = st'.OpenOrders) (targets : List PortfolioTarget) :
    ordersFor st targets = ordersFor st' targets := by
  cases st
  cases st'
  simp only at h1 h2
  subst h1
  subst h2
  rfl

/-- Main characterization of `Execute`: the run leaves holdings and open
orders untouched and appends exactly the spec-side order list to the
outbound trace. -/
theorem Execute_eq (targets : List PortfolioTarget) :
    ∀ st : AlgoState,
      Execute st targets = ⟨st.Securities, st.OpenOrders, st.Submitted ++ ordersFor st targets⟩ := by
  induction targets with
  | nil =>
    intro st
    cases st
    simp [Execute, ordersFor]
  | cons t rest ih =>
    intro st
    show Execute (if deltaFor st t ≠ 0 then st.MarketOrder t.Symbol (deltaFor st t) else st)
        rest = ⟨st.Securities, st.OpenOrders, st.Submitted ++ ordersFor st (t :: rest)⟩
    by_cases h : deltaFor st t = 0
    · rw [if_neg (fun hne => hne h), ih st]
      simp [ordersFor, List.filterMap_cons, h]
    · rw [if_pos h, ih (st.MarketOrder t.Symbol (deltaFor st t))]
      have hd : ∀ u, deltaFor
          ⟨st.Securities, st.OpenOrders,
            st.Submitted ++ [{ Symbol := t.Symbol, Quantity := deltaFor st t }]⟩ u =
          deltaFor st u := fun _ => rfl
      simp [AlgoState.MarketOrder, ordersFor, List.filterMap_cons, h, hd]

example :
    (Execute { Securities := [⟨1, true, ⟨100, 0⟩⟩], OpenOrders := [], Submitted := [] }
      [⟨1, 150⟩]).Submitted = [⟨1, 50⟩] := by with_unfolding_all decide

example :
    (Execute { Securities := [⟨1, true, ⟨100, 0⟩⟩], OpenOrders := [⟨1, 20⟩], Submitted := [] }
      [⟨1, 120⟩]).Submitted = [] := by with_unfolding_all decide

example :
    (Execute { Securities := [⟨1, true, ⟨0, 0⟩⟩], OpenOrders := [⟨1, 5⟩, ⟨1, -2⟩], Submitted := [] }
      [⟨1, 3⟩]).Submitted = [] := by with_unfolding_all decide

example :
    ManageRisk (MaximumDrawdownPercentPerSecurity.init 0.05)
      [⟨1, true, ⟨10, -(6 : ℚ)/100⟩⟩] [⟨1, 10⟩] = [⟨1, 0⟩] := by with_unfolding_all decide

example :
    ManageRisk (MaximumDrawdownPercentPerSecurity.init 0.05)
      [⟨2, true, ⟨10, -(4 : ℚ)/100⟩⟩] [⟨2, 10⟩] = [⟨2, 10⟩] := by with_unfolding_all decide

theorem mem_keepLast {l : List Symbol} {x : Symbol} : x ∈ keepLast l ↔ x ∈ l := by
  induction l with
  | nil => simp [keepLast]
  | cons s rest ih =>
    by_cases h : s ∈ rest
    · simp only [keepLast, if_pos h, ih, List.mem_cons]
      exact ⟨Or.inr, fun hc => hc.elim (fun he => he ▸ h) id⟩
    · simp [keepLast, if_neg h, ih]

theorem keepLast_nodup (l : List Symbol) : (keepLast l).Nodup := by
  induction l with
  | nil => simp [keepLast]
  | cons s rest ih =>
    by_cases h : s ∈ rest
    · simpa [keepLast, if_pos h] using ih
    · simp only [keepLast, if_neg h, List.nodup_cons]
      exact ⟨fun hc => h (mem_keepLast.mp hc), ih⟩

theorem keepLast_eq_self {l : List Symbol} (h : l.Nodup) : keepLast l = l := by
  induction l with
  | nil => rfl
  | cons s rest ih =>
    rw [List.nodup_cons] at h
    rw [keepLast, if_neg h.1, ih h.2]

/-- Characterization of `ManageRisk`: the surviving input targets are
exactly those whose symbol breaches for no scanned security, kept in
input order, followed by one liquidation target per breaching symbol,
in the scan order of the last breaching occurrence of each symbol. -/
theorem ManageRisk_eq (self : MaximumDrawdownPercentPerSecurity) (sec : List Security) :
    ∀ targets : List PortfolioTarget,
      ManageRisk self sec targets =
        targets.filter (fun t => decide (t.Symbol ∉ breachSyms self sec)) ++
          (keepLast (breachSyms self sec)).map
            (fun s => { Symbol := s, Quantity := 0 }) := by
  induction sec with
  | nil =>
    intro targets
    simp [ManageRisk, breachSyms, keepLast]
  | cons s rest ih =>
    intro targets
    by_cases hInv : s.Invested
    · by_cases hpnl : s.Holdings.UnrealizedProfitPercent < self.maximumDrawdownPercent
      · have hbs : breachSyms self (s :: rest) = s.Symbol :: breachSyms self rest := by
          simp [breachSyms, List.filter_cons, breaches, hInv, hpnl]
        have hstep : ManageRisk self (s :: rest) targets =
            ManageRisk self rest
              ((targets.filter (fun x => x.Symbol != s.Symbol)) ++
                [{ Symbol := s.Symbol, Quantity := 0 }]) := by
          rw [ManageRisk, if_neg (by simp [hInv]), if_pos hpnl]
        rw [hstep, ih, hbs, List.filter_append, List.filter_filter]
        by_cases hmem : s.Symbol ∈ breachSyms self rest
        · rw [keepLast, if_pos hmem]
          have hz : ([({ Symbol := s.Symbol, Quantity := 0 } : PortfolioTarget)].filter
              (fun t => decide (t.Symbol ∉ breachSyms self rest))) = [] := by
            simp [hmem]
          rw [hz, List.append_nil]
          have hf : ∀ x ∈ targets,
              (decide (x.Symbol ∉ breachSyms self rest) && (x.Symbol != s.Symbol)) =
                decide (x.Symbol ∉ s.Symbol :: breachSyms self rest) := by
            intro x _
            by_cases h1 : x.Symbol = s.Symbol <;>
              by_cases h2 : x.Symbol ∈ breachSyms self rest <;>
                simp [h1, h2, hmem]
          rw [List.filter_congr hf]
        · rw [keepLast, if_neg hmem]
          have hz : ([({ Symbol := s.Symbol, Quantity := 0 } : PortfolioTarget)].filter
              (fun t => decide (t.Symbol ∉ breachSyms self rest))) =
              [{ Symbol := s.Symbol, Quantity := 0 }] := by
            simp [hmem]
          rw [hz]
          have hf : ∀ x ∈ targets,
              (decide (x.Symbol ∉ breachSyms self rest) && (x.Symbol != s.Symbol)) =
                decide (x.Symbol ∉ s.Symbol :: breachSyms self rest) := by
            intro x _
            by_cases h1 : x.Symbol = s.Symbol <;>
              by_cases h2 : x.Symbol ∈ breachSyms self rest <;>
                simp [h1, h2]
          rw [List.filter_congr hf]
          simp [List.append_assoc]
      · have hbs : breachSyms self (s :: rest) = breachSyms self rest := by
          simp [breachSyms, List.filter_cons, breaches, hInv, hpnl]
        have hstep : ManageRisk self (s :: rest) targets = ManageRisk self rest targets := by
          rw [ManageRisk, if_neg (by simp [hInv]), if_neg hpnl]
        rw [hstep, ih, hbs]
    · have hbs : breachSyms self (s :: rest) = breachSyms self rest := by
        simp [breachSyms, List.filter_cons, breaches, hInv]
      have hstep : ManageRisk self (s :: rest) targets = ManageRisk self rest targets := by
        rw [ManageRisk, if_pos (by simp [hInv])]
      rw [hstep, ih, hbs]

/-- Mapping liquidation targets over a duplicate-free symbol list that
contains `sym` and filtering back on `sym` yields the single
zero-quantity target. -/
theorem filter_map_zero_of_mem {l : List Symbol} {sym : Symbol} (hnd : l.Nodup)
    (hm : sym ∈ l) :
    ((l.map fun s => ({ Symbol := s, Quantity := 0 } : PortfolioTarget)).filter
      fun t => decide (t.Symbol = sym)) = [{ Symbol := sym, Quantity := 0 }] := by
  induction l with
  | nil => cases hm
  | cons a rest ih =>
    rw [List.nodup_cons] at hnd
    by_cases h : a = sym
    · subst h
      have hrest : ((rest.map fun s =>
          ({ Symbol := s, Quantity := 0 } : PortfolioTarget)).filter
            fun t => decide (t.Symbol = a)) = [] := by
        rw [List.filter_eq_nil_iff]
        intro t ht
        simp only [List.mem_map] at ht
        obtain ⟨s, hs, rfl⟩ := ht
        have hne : s ≠ a := fun he => hnd.1 (he ▸ hs)
        simpa using hne
      simp [List.filter_cons, hrest]
    · have hm' : sym ∈ rest := by
        rcases List.mem_cons.mp hm with h' | h'
        · exact absurd h'.symm h
        · exact h'
      simp [List.filter_cons, h, ih hnd.2 hm']

/-- When a symbol has a breaching scanned security, the returned list
carries exactly one target for it: the zero-quantity liquidation. -/
theorem filter_manageRisk_of_mem (self : MaximumDrawdownPercentPerSecurity)
    (sec : List Security) (targets : List PortfolioTarget) (sym : Symbol)
    (hmem : sym ∈ breachSyms self sec) :
    ((ManageRisk self sec targets).filter fun t => decide (t.Symbol = sym)) =
      [{ Symbol := sym, Quantity := 0 }] := by
  rw [ManageRisk_eq, List.filter_append, List.filter_filter]
  have h1 : targets.filter
      (fun a => decide (a.Symbol = sym) && decide (a.Symbol ∉ breachSyms self sec)) = [] := by
    rw [List.filter_eq_nil_iff]
    intro t _
    by_cases h : t.Symbol = sym
    · simp [h, hmem]
    · simp [h]
  rw [h1, List.nil_append,
    filter_map_zero_of_mem (keepLast_nodup _) (mem_keepLast.mpr hmem)]

/-- When a symbol has no breaching scanned security, its targets pass
through the call unchanged. -/
theorem filter_manageRisk_of_not_mem (self : MaximumDrawdownPercentPerSecurity)
    (sec : List Security) (targets : List PortfolioTarget) (sym : Symbol)
    (hmem : sym ∉ breachSyms self sec) :
    ((ManageRisk self sec targets).filter fun t => decide (t.Symbol = sym)) =
      targets.filter fun t => decide (t.Symbol = sym) := by
  rw [ManageRisk_eq, List.filter_append, List.filter_filter]
  have h1 : targets.filter
      (fun a => decide (a.Symbol = sym) && decide (a.Symbol ∉ breachSyms self sec)) =
      targets.filter fun t => decide (t.Symbol = sym) := by
    apply List.filter_congr
    intro x _
    by_cases h : x.Symbol = sym
    · simp [h, hmem]
    · simp [h]
  have h2 : (((keepLast (breachSyms self sec)).map
      fun s => ({ Symbol := s, Quantity := 0 } : PortfolioTarget)).filter
        fun t => decide (t.Symbol = sym)) = [] := by
    rw [List.filter_eq_nil_iff]
    intro t ht
    simp only [List.mem_map] at ht
    obtain ⟨s, hs, rfl⟩ := ht
    have hne : s ≠ sym := fun he => hmem (he ▸ mem_keepLast.mp hs)
    simpa using hne
  rw [h1, h2, List.append_nil]

/-- Bridge between the state-threaded translation and the pure one. -/
theorem ManageRiskRun_eq (self : MaximumDrawdownPercentPerSecurity) (st : AlgoState)
    (sec : List Security) : ∀ targets : List PortfolioTarget,
    ManageRiskRun self st sec targets = (ManageRisk self sec targets, st) := by
  induction sec with
  | nil => intro targets; rfl
  | cons s rest ih =>
    intro targets
    by_cases hInv : s.Invested
    · by_cases hpnl : s.Holdings.UnrealizedProfitPercent < self.maximumDrawdownPercent
      · rw [ManageRiskRun, if_neg (by simp [hInv]), if_pos hpnl, ih,
          ManageRisk, if_neg (by simp [hInv]), if_pos hpnl]
      · rw [ManageRiskRun, if_neg (by simp [hInv]), if_neg hpnl, ih,
          ManageRisk, if_neg (by simp [hInv]), if_neg hpnl]
    · rw [ManageRiskRun, if_pos (by simp [hInv]), ih, ManageRisk, if_pos (by simp [hInv])]

/-- C1: for every target in the list passed to `Execute`, with
`existing` the holding quantity plus the open-order sum for its symbol
and `delta = targetQuantity - existing`, the call submits exactly one
market order of signed quantity `delta` for that target when `delta` is
nonzero and submits none for it when `delta` is zero; `Execute` is a
total function, so the zero case is a plain no-op, not an error. -/
theorem execute_submits_exactly_delta (st : AlgoState) (targets : List PortfolioTarget) :
    (Execute st targets).Submitted =
      st.Submitted ++ targets.filterMap (fun t =>
        if deltaFor st t = 0 then none
        else some { Symbol := t.Symbol, Quantity := deltaFor st t }) := by
  rw [Execute_eq targets st]
  rfl

/-- C8: `Execute` is side-effect only and in order: running the whole
list equals running a prefix and then the suffix, the holdings and
open-order snapshots are left untouched, and the only observable effect
is the order-request trace appended in target-list order, so every
request coming from an earlier list entry precedes every request coming
from a later one. -/
theorem execute_sideeffect_in_list_order (st : AlgoState) (pre post : List PortfolioTarget) :
    Execute st (pre ++ post) = Execute (Execute st pre) post ∧
    (Execute st pre).Securities = st.Securities ∧
    (Execute st pre).OpenOrders = st.OpenOrders ∧
    (Execute st pre).Submitted = st.Submitted ++ ordersFor st pre := by
  refine ⟨?_, ?_, ?_, ?_⟩
  · rw [Execute_eq (pre ++ post) st, Execute_eq pre st, Execute_eq post]
    rw [@ordersFor_congr
      ⟨st.Securities, st.OpenOrders, st.Submitted ++ ordersFor st pre⟩ st rfl rfl post]
    simp only [ordersFor, List.filterMap_append, List.append_assoc]
  · rw [Execute_eq pre st]
  · rw [Execute_eq pre st]
  · rw [Execute_eq pre st]

/-- C5: when the same instrument appears twice in the target list with
different quantities, both deltas are computed against the same stale
`existing` snapshot taken before either order is placed; in particular
the second submitted quantity is `t2.Quantity - existingFor st sym`,
not a figure adjusted by the first order. -/
theorem execute_duplicate_targets_stale_existing (st : AlgoState)
    (t1 t2 : PortfolioTarget) (rest : List PortfolioTarget)
    (hsym : t2.Symbol = t1.Symbol) (_hqty : t1.Quantity ≠ t2.Quantity) :
    (Execute st (t1 :: t2 :: rest)).Submitted =
      st.Submitted ++
        ((if t1.Quantity - existingFor st t1.Symbol = 0 then [] else
            [{ Symbol := t1.Symbol, Quantity := t1.Quantity - existingFor st t1.Symbol }]) ++
          ((if t2.Quantity - existingFor st t1.Symbol = 0 then [] else
            [{ Symbol := t2.Symbol, Quantity := t2.Quantity - existingFor st t1.Symbol }]) ++
            ordersFor st rest)) := by
  rw [Execute_eq (t1 :: t2 :: rest) st]
  simp only [ordersFor, List.filterMap_cons, deltaFor, hsym]
  by_cases h1 : t1.Quantity - existingFor st t1.Symbol = 0 <;>
    by_cases h2 : t2.Quantity - existingFor st t1.Symbol = 0 <;>
      simp [h1, h2]

/-- Witness for C5 at a concrete input: holding 100 of symbol 1, no open
orders, duplicate targets 150 then 120 produce orders +50 and +20 — the
second does not see the first. -/
theorem execute_duplicate_targets_stale_existing_witness :
    (Execute { Securities := [⟨1, true, ⟨100, 0⟩⟩], OpenOrders := [], Submitted := [] }
      [⟨1, 150⟩, ⟨1, 120⟩]).Submitted = [⟨1, 50⟩, ⟨1, 20⟩] := by
  rw [execute_duplicate_targets_stale_existing
    { Securities := [⟨1, true, ⟨100, 0⟩⟩], OpenOrders := [], Submitted := [] }
    ⟨1, 150⟩ ⟨1, 120⟩ [] rfl (by with_unfolding_all decide)]
  with_unfolding_all decide

/-- C2: for every holding that is invested and strictly below the
normalized threshold `-|maximumDrawdownPercent|`, the returned list
carries exactly one target for its symbol, the liquidation target of
quantity 0 — every pre-existing entry for that symbol (zero, one, or
several duplicates) is gone. -/
theorem manageRisk_breach_single_zero (p : ℚ) (sec : List Security)
    (targets : List PortfolioTarget) (s : Security) (hs : s ∈ sec)
    (hinv : s.Invested = true)
    (hpnl : s.Holdings.UnrealizedProfitPercent < -|p|) :
    ((ManageRisk (MaximumDrawdownPercentPerSecurity.init p) sec targets).filter
      fun t => decide (t.Symbol = s.Symbol)) = [{ Symbol := s.Symbol, Quantity := 0 }] := by
  apply filter_manageRisk_of_mem
  simp only [breachSyms, List.mem_map]
  refine ⟨s, List.mem_filter.mpr ⟨hs, ?_⟩, rfl⟩
  simp [breaches, hinv, MaximumDrawdownPercentPerSecurity.init]
  exact hpnl

/-- Witness for C2: with threshold 0.05, symbol 1 invested at -6%
unrealized and two duplicate requested targets, the output keeps exactly
the single liquidation target for symbol 1. -/
theorem manageRisk_breach_single_zero_witness :
    ((ManageRisk (MaximumDrawdownPercentPerSecurity.init 0.05)
      [⟨1, true, ⟨10, -(6 : ℚ)/100⟩⟩] [⟨1, 10⟩, ⟨1, 7⟩]).filter
        fun t => decide (t.Symbol = 1)) = [{ Symbol := 1, Quantity := 0 }] :=
  manageRisk_breach_single_zero 0.05 [⟨1, true, ⟨10, -(6 : ℚ)/100⟩⟩] [⟨1, 10⟩, ⟨1, 7⟩]
    ⟨1, true, ⟨10, -(6 : ℚ)/100⟩⟩ (List.mem_singleton.mpr rfl) rfl
    (by with_unfolding_all decide)

/-- C3: a symbol none of whose scanned holdings breaches — not invested,
or unrealized profit percent at or above the threshold, the boundary
case included — or that has no holding at all, keeps its targets in the
returned list exactly as given. -/
theorem manageRisk_nonbreach_untouched (p : ℚ) (sec : List Security)
    (targets : List PortfolioTarget) (sym : Symbol)
    (h : ∀ s ∈ sec, s.Symbol = sym →
      s.Invested = false ∨ -|p| ≤ s.Holdings.UnrealizedProfitPercent) :
    ((ManageRisk (MaximumDrawdownPercentPerSecurity.init p) sec targets).filter
      fun t => decide (t.Symbol = sym)) =
      targets.filter fun t => decide (t.Symbol = sym) := by
  apply filter_manageRisk_of_not_mem
  intro hc
  simp only [breachSyms, List.mem_map] at hc
  obtain ⟨s, hs, hsym⟩ := hc
  rw [List.mem_filter] at hs
  have hg := hs.2
  simp only [breaches, Bool.and_eq_true, decide_eq_true_eq] at hg
  rcases h s hs.1 hsym with h' | h'
  · rw [h'] at hg
    exact Bool.false_ne_true hg.1
  · exact absurd hg.2 (not_lt.mpr h')

/-- Witness for C3 at the boundary: symbol 1 invested at exactly -5%
unrealized with threshold 0.05 is not a breach (comparison is strict),
so its target of quantity 10 passes through unchanged. -/
theorem manageRisk_nonbreach_untouched_witness :
    ((ManageRisk (MaximumDrawdownPercentPerSecurity.init 0.05)
      [⟨1, true, ⟨10, -(5 : ℚ)/100⟩⟩, ⟨2, false, ⟨0, -(9 : ℚ)/10⟩⟩]
      [⟨1, 10⟩]).filter fun t => decide (t.Symbol = 1)) =
      List.filter (fun t => decide (t.Symbol = 1)) [⟨1, 10⟩] :=
  manageRisk_nonbreach_untouched 0.05
    [⟨1, true, ⟨10, -(5 : ℚ)/100⟩⟩, ⟨2, false, ⟨0, -(9 : ℚ)/10⟩⟩] [⟨1, 10⟩] 1
    (by with_unfolding_all decide)

/-- C4: the constructor stores `-|maximumDrawdownPercent|`, never fails
(it is a total function), and a negative argument yields the very same
model object as its positive counterpart, hence identical behavior of
the risk scan. -/
theorem init_absolute_value_normalization (q : ℚ) (sec : List Security)
    (targets : List PortfolioTarget) :
    (MaximumDrawdownPercentPerSecurity.init q).maximumDrawdownPercent = -|q| ∧
    MaximumDrawdownPercentPerSecurity.init (-q) = MaximumDrawdownPercentPerSecurity.init q ∧
    ManageRisk (MaximumDrawdownPercentPerSecurity.init (-q)) sec targets =
      ManageRisk (MaximumDrawdownPercentPerSecurity.init q) sec targets := by
  have hinit : MaximumDrawdownPercentPerSecurity.init (-q) =
      MaximumDrawdownPercentPerSecurity.init q := by
    simp [MaximumDrawdownPercentPerSecurity.init, abs_neg]
  exact ⟨rfl, hinit, by rw [hinit]⟩

/-- C6: the risk scan is idempotent — applying `ManageRisk` to its own
output under the same securities snapshot returns that output exactly
(even up to ordering, stronger than required). -/
theorem manageRisk_idempotent (self : MaximumDrawdownPercentPerSecurity)
    (sec : List Security) (targets : List PortfolioTarget) :
    ManageRisk self sec (ManageRisk self sec targets) = ManageRisk self sec targets := by
  rw [ManageRisk_eq self sec targets, ManageRisk_eq self sec, List.filter_append,
    List.filter_filter]
  have h1 : targets.filter (fun a => decide (a.Symbol ∉ breachSyms self sec) &&
      decide (a.Symbol ∉ breachSyms self sec)) =
      targets.filter fun t => decide (t.Symbol ∉ breachSyms self sec) :=
    List.filter_congr fun x _ => Bool.and_self _
  have h2 : (((keepLast (breachSyms self sec)).map
      fun s => ({ Symbol := s, Quantity := 0 } : PortfolioTarget)).filter
        fun t => decide (t.Symbol ∉ breachSyms self sec)) = [] := by
    rw [List.filter_eq_nil_iff]
    intro t ht
    simp only [List.mem_map] at ht
    obtain ⟨s, hs, rfl⟩ := ht
    simpa using mem_keepLast.mp hs
  rw [h1, h2, List.append_nil]

/-- C7: the risk scan has no side effect beyond the list it returns: the
state-threaded translation returns the algorithm state unchanged (no
market order submitted, no snapshot written) together with the pure
result, and the caller's input list, a value in this embedding, is not
mutated. -/
theorem manageRisk_no_side_effects (self : MaximumDrawdownPercentPerSecurity)
    (st : AlgoState) (targets : List PortfolioTarget) :
    ManageRiskRun self st st.Securities targets =
      (ManageRisk self st.Securities targets, st) :=
  ManageRiskRun_eq self st st.Securities targets

/-- C9: every stored threshold is at most 0, so an invested holding that
is flat or profitable (unrealized profit percent at least 0) is never
assigned a liquidation target: its targets pass through unchanged for
any constructor argument. -/
theorem manageRisk_profitable_never_liquidated (p : ℚ) (sec : List Security)
    (targets : List PortfolioTarget) (sym : Symbol)
    (h : ∀ s ∈ sec, s.Symbol = sym → 0 ≤ s.Holdings.UnrealizedProfitPercent) :
    (MaximumDrawdownPercentPerSecurity.init p).maximumDrawdownPercent ≤ 0 ∧
    ((ManageRisk (MaximumDrawdownPercentPerSecurity.init p) sec targets).filter
      fun t => decide (t.Symbol = sym)) =
      targets.filter fun t => decide (t.Symbol = sym) := by
  constructor
  · exact neg_nonpos.mpr (abs_nonneg p)
  · apply filter_manageRisk_of_not_mem
    intro hc
    simp only [breachSyms, List.mem_map] at hc
    obtain ⟨s, hs, hsym⟩ := hc
    rw [List.mem_filter] at hs
    have hg := hs.2
    simp only [breaches, Bool.and_eq_true, decide_eq_true_eq] at hg
    have h0 := h s hs.1 hsym
    have hlt : s.Holdings.UnrealizedProfitPercent < 0 :=
      lt_of_lt_of_le hg.2 (neg_nonpos.mpr (abs_nonneg p))
    exact absurd h0 (not_le.mpr hlt)

/-- Witness for C9: threshold argument 0.05, symbol 1 invested with +3%
unrealized profit; the threshold is nonpositive and the symbol's target
is untouched. -/
theorem manageRisk_profitable_never_liquidated_witness :
    (MaximumDrawdownPercentPerSecurity.init 0.05).maximumDrawdownPercent ≤ 0 ∧
    ((ManageRisk (MaximumDrawdownPercentPerSecurity.init 0.05)
      [⟨1, true, ⟨10, (3 : ℚ)/100⟩⟩] [⟨1, 25⟩]).filter
        fun t => decide (t.Symbol = 1)) =
      List.filter (fun t => decide (t.Symbol = 1)) [⟨1, 25⟩] :=
  manageRisk_profitable_never_liquidated 0.05 [⟨1, true, ⟨10, (3 : ℚ)/100⟩⟩] [⟨1, 25⟩] 1
    (by with_unfolding_all decide)

/-- C10: under the engine's keyed securities collection (pairwise
distinct symbols), the returned list is the surviving input targets in
their input order followed by the injected liquidation targets, one per
breaching holding, in holdings-scan order. -/
theorem manageRisk_output_order (self : MaximumDrawdownPercentPerSecurity)
    (sec : List Security) (targets : List PortfolioTarget)
    (hnd : (sec.map Security.Symbol).Nodup) :
    ManageRisk self sec targets =
      targets.filter (fun t => decide (t.Symbol ∉ breachSyms self sec)) ++
        (breachSyms self sec).map (fun s => { Symbol := s, Quantity := 0 }) := by
  rw [ManageRisk_eq, keepLast_eq_self]
  exact ((List.filter_sublist sec).map Security.Symbol).nodup hnd

/-- Witness for C10: symbols 1 and 3 breach, 2 does not; the surviving
target for symbol 4 keeps its place and the two liquidation targets are
appended in scan order. -/
theorem manageRisk_output_order_witness :
    ManageRisk (MaximumDrawdownPercentPerSecurity.init 0.05)
      [⟨1, true, ⟨10, -(6 : ℚ)/100⟩⟩, ⟨2, true, ⟨4, -(2 : ℚ)/100⟩⟩,
        ⟨3, true, ⟨5, -(7 : ℚ)/100⟩⟩]
      [⟨1, 10⟩, ⟨4, 2⟩] = [⟨4, 2⟩, ⟨1, 0⟩, ⟨3, 0⟩] := by
  rw [manageRisk_output_order (MaximumDrawdownPercentPerSecurity.init 0.05)
    [⟨1, true, ⟨10, -(6 : ℚ)/100⟩⟩, ⟨2, true, ⟨4, -(2 : ℚ)/100⟩⟩,
      ⟨3, true, ⟨5, -(7 : ℚ)/100⟩⟩]
    [⟨1, 10⟩, ⟨4, 2⟩] (by decide)]
  with_unfolding_all decide

end LeanPy
